import Mathlib

/-
Verification of the hermit-q graph abstraction layer.

The development shallowly embeds the two source files of the repository:

* `src/src/zx/graph.rs`: the `Phase` type and the `Graph` capability
  contract (vertex and edge kinds, attribute traits, operation
  signatures).
* `src/src/zx/simple_graph.rs`: the reference backend `GGraph`, a thin
  wrapper around an undirected `petgraph::Graph`.  The implemented
  operations delegate directly to petgraph, so their embedding follows
  the documented petgraph semantics (dense indices, `swap_remove` on
  node removal, panic on `add_edge` with a missing endpoint, empty
  neighbour iterator for an out-of-range index).

Several operations of the contract are `todo!()` stubs in the source
(`set_input`, `set_output`, `inputs`, `outputs`, `adjoint`, `compose`,
`tensor`) and the phase normalization arithmetic is only sketched by the
`Phase` struct.  Those are modelled from the specification text; each
such definition carries a doc comment starting with
`Modelled from the spec:`.

Machine integers of the source (`u32` counts, index types) are embedded
as `Nat`; the graphs considered here are far below the `u32` range, and
no claim concerns overflow.  Rust `Option`/panic outcomes are embedded
as `Option`.
-/

/-- Phase of a node, represented as a fraction of pi
(`src/src/zx/graph.rs`, struct `Phase` wrapping `fraction::Fraction`).
The `fraction` crate keeps fractions in lowest terms, exactly as the
Lean `Rat` type does, so the wrapped fraction is embedded as `Rat`. -/
structure Phase where
  f : Rat
deriving DecidableEq, Repr

/-- `Default for Phase` returns phase 0 (`graph.rs` lines 11-15). -/
def Phase.default : Phase := ⟨0⟩

/-- Modelled from the spec: construction of a `Phase` from an arbitrary
rational is required behavior ("constructing a phase from an arbitrary
rational must reduce and normalize it on construction"), but the source
only sketches the type with no constructor.  The value is normalized
modulo 2 into the half-open range `[0, 2)`; reduction to lowest terms is
automatic because every Lean `Rat` is stored in canonical reduced form,
matching the reduced-form invariant of `fraction::Fraction`. -/
def Phase.ofRat (r : Rat) : Phase := ⟨r - 2 * ⌊r / 2⌋⟩

/-- Modelled from the spec: `add(a, b)` yields the reduced fraction of
`(a+b) mod 2`; addition itself is missing from the source. -/
def Phase.add (a b : Phase) : Phase := Phase.ofRat (a.f + b.f)

/-- Modelled from the spec: phase negation modulo 2, the per-spider
effect of the (missing) `adjoint` operation. -/
def Phase.neg (a : Phase) : Phase := Phase.ofRat (-a.f)

/-- A phase value in the canonical form the spec demands of every
observable phase: inside the half-open range `[0, 2)`. -/
def Phase.Normalized (a : Phase) : Prop := 0 ≤ a.f ∧ a.f < 2

instance : DecidablePred Phase.Normalized := fun a =>
  inferInstanceAs (Decidable (0 ≤ a.f ∧ a.f < 2))

/-- Kinds of a vertex (`graph.rs` enum `VertexKind`); default is `Boundary`. -/
inductive VertexKind where
  | Z
  | X
  | Boundary
  | HBox
deriving DecidableEq, Repr

def VertexKind.default : VertexKind := VertexKind.Boundary

/-- Kinds of an edge (`graph.rs` enum `EdgeKind`); default is `Regular`. -/
inductive EdgeKind where
  | Regular
  | Hadam
deriving DecidableEq, Repr

def EdgeKind.default : EdgeKind := EdgeKind.Regular

/-- Attributes of a vertex of the reference backend
(`simple_graph.rs` struct `VertexData`: a phase and a kind). -/
structure VertexData where
  phase : Phase
  kind : VertexKind
deriving DecidableEq, Repr

/-- `Default for VertexData` (derived in the source): default phase 0 and
default kind `Boundary`. -/
def VertexData.default : VertexData := ⟨Phase.default, VertexKind.default⟩

instance : Inhabited VertexData := ⟨VertexData.default⟩

/-- Attributes of an edge of the reference backend
(`simple_graph.rs` struct `EdgeData`: a kind). -/
structure EdgeData where
  kind : EdgeKind
deriving DecidableEq, Repr

/-- The reference backend (`simple_graph.rs` struct `GGraph`): an
undirected `petgraph::Graph` plus two `HashSet`s of designated input and
output vertices.  The petgraph node arena is embedded as the list of
node weights (a node handle is its dense position index) and the edge
arena as the list of `(source, target, weight)` triples in storage
order (an edge handle is its position index).  The `HashSet` fields are
embedded as `Finset Nat`, keeping their unordered-set semantics.  The
adjacency linked lists of petgraph are not represented: they only
determine the iteration order of neighbour enumeration and the slot
compaction order of cascaded edge removal, and no theorem below depends
on either order; surviving elements and their endpoints are modelled
exactly. -/
structure GGraph where
  nodes : List VertexData
  edges : List (Nat × Nat × EdgeData)
  inputs : Finset Nat
  outputs : Finset Nat
deriving DecidableEq

/-- The empty backend graph (used to build concrete test diagrams). -/
def GGraph.empty : GGraph := ⟨[], [], ∅, ∅⟩

/-- `num_vertices` delegates to `petgraph node_count` (`simple_graph.rs`
lines 98-100). -/
def GGraph.num_vertices (g : GGraph) : Nat := g.nodes.length

/-- `num_edges` delegates to `petgraph edge_count`. -/
def GGraph.num_edges (g : GGraph) : Nat := g.edges.length

/-- `vertex` delegates to `petgraph node_weight`, which is `nodes.get`:
`none` for an index outside the node arena. -/
def GGraph.vertex (g : GGraph) (v : Nat) : Option VertexData := g.nodes[v]?

/-- `edge` delegates to `petgraph edge_weight`. -/
def GGraph.edge (g : GGraph) (e : Nat) : Option EdgeData :=
  (g.edges[e]?).map (fun x => x.2.2)

/-- `edge_endpoints` delegates to `petgraph edge_endpoints`. -/
def GGraph.edge_endpoints (g : GGraph) (e : Nat) : Option (Nat × Nat) :=
  (g.edges[e]?).map (fun x => (x.1, x.2.1))

/-- `neighbours` delegates to petgraph `neighbors`.  For an index with no
node, petgraph returns the empty iterator (`nodes.get` yields `None` and
the walk starts at the end sentinel).  For a present node it yields the
opposite endpoint of every incident edge, a self-loop contributing once
(petgraph skips the `skip_start` endpoint when walking incoming edges). -/
def GGraph.neighbours (g : GGraph) (v : Nat) : List Nat :=
  if v < g.nodes.length then
    g.edges.filterMap (fun x =>
      if x.1 = v then some x.2.1 else if x.2.1 = v then some x.1 else none)
  else []

/-- `vertex_degree` counts the neighbour iterator (`simple_graph.rs`
lines 134-136). -/
def GGraph.vertex_degree (g : GGraph) (v : Nat) : Nat :=
  (g.neighbours v).length

/-- `add_vertices` pushes `count` default-weighted nodes, returning the
fresh handles in creation order (`simple_graph.rs` lines 158-165). -/
def GGraph.add_vertices (g : GGraph) (count : Nat) : List Nat × GGraph :=
  (List.range' g.nodes.length count,
    { g with nodes := g.nodes ++ List.replicate count VertexData.default })

/-- `add_vertex` pushes one node carrying the given kind and phase
(`simple_graph.rs` lines 167-169). -/
def GGraph.add_vertex (g : GGraph) (kind : VertexKind) (phase : Phase) :
    Nat × GGraph :=
  (g.nodes.length, { g with nodes := g.nodes ++ [⟨phase, kind⟩] })

/-- `add_edge` calls `petgraph add_edge` with the arguments swapped
(`self.g.add_edge(u, v, ...)`, `simple_graph.rs` lines 171-173).
petgraph `add_edge` panics when either endpoint index has no node; the
panic is embedded as `none`.  On success the new edge is pushed and its
dense index returned. -/
def GGraph.add_edge (g : GGraph) (v u : Nat) (kind : EdgeKind) :
    Option (Nat × GGraph) :=
  if v < g.nodes.length ∧ u < g.nodes.length then
    some (g.edges.length, { g with edges := g.edges ++ [(u, v, ⟨kind⟩)] })
  else none

/-- `Vec::swap_remove` on a list: the last element moves into the removed
slot and the length shrinks by one.  Meaningful for `i < l.length`. -/
def swapRemove {α : Type} [Inhabited α] (l : List α) (i : Nat) : List α :=
  (l.set i (l.getLastD default)).dropLast

/-- `remove_vertex` delegates to `petgraph remove_node`
(`simple_graph.rs` lines 175-177): for an absent index it is a no-op
(petgraph returns `None`); otherwise it removes every edge incident to
`v`, swap-removes the node (the node at the last index moves into slot
`v`), and rewrites edge endpoints that referred to the old last index so
they refer to `v`.  The designation sets are not touched, exactly as in
the source.  -/
def GGraph.remove_vertex (g : GGraph) (v : Nat) : GGraph :=
  if v < g.nodes.length then
    let last := g.nodes.length - 1
    let ren : Nat → Nat := fun w => if w = last then v else w
    { g with
      nodes := swapRemove g.nodes v
      edges := (g.edges.filter (fun x => !(x.1 = v ∨ x.2.1 = v : Bool))).map
        (fun x => (ren x.1, ren x.2.1, x.2.2)) }
  else g

/-- `remove_edge` delegates to `petgraph remove_edge`: no-op for an
absent index, otherwise the edge slot is swap-removed. -/
def GGraph.remove_edge (g : GGraph) (e : Nat) : GGraph :=
  if e < g.edges.length then
    { g with
      edges := ((g.edges.set e (g.edges.getLastD (0, 0, ⟨EdgeKind.default⟩))).dropLast) }
  else g

/-- Well-formedness maintained by the backend: every stored edge endpoint
is a live node index. -/
def GGraph.WF (g : GGraph) : Prop :=
  ∀ x ∈ g.edges, x.1 < g.nodes.length ∧ x.2.1 < g.nodes.length

/-- Two vertices (a Z spider and an X spider), no edges; built through the
backend API from the empty graph. -/
def gPair : GGraph :=
  ((GGraph.empty.add_vertex VertexKind.Z Phase.default).2.add_vertex
    VertexKind.X Phase.default).2

/-- The two vertices of `gPair` joined by a regular edge. -/
def gLine : GGraph :=
  ⟨gPair.nodes, [(1, 0, ⟨EdgeKind.Regular⟩)], ∅, ∅⟩

/-- `gLine` with a second parallel edge appended. -/
def gLine2 : GGraph :=
  ⟨gLine.nodes, gLine.edges ++ [(1, 0, ⟨EdgeKind.Regular⟩)], ∅, ∅⟩

/-- Modelled from the spec: the abstract diagram state of the Graph
capability contract, used to give semantics to the structural operators
`adjoint`, `compose` and `tensor`, and to the ordered input/output
designation sequences; in the source all of these are `todo!()` stubs
(`simple_graph.rs` lines 74-96 and 146-156).  Vertices are handle/data
pairs, edges are endpoint pairs with a kind, and the designated inputs
and outputs are ordered handle sequences as the spec demands. -/
structure Diagram where
  verts : List (Nat × VertexData)
  edges : List (Nat × Nat × EdgeKind)
  inputs : List Nat
  outputs : List Nat
deriving DecidableEq, Repr

/-- The handles of a diagram, in storage order. -/
def Diagram.handles (D : Diagram) : List Nat := D.verts.map Prod.fst

def Diagram.num_vertices (D : Diagram) : Nat := D.verts.length

def Diagram.num_edges (D : Diagram) : Nat := D.edges.length

/-- A handle bound strictly above every vertex handle of the diagram,
used to relabel the second operand of a merge so that no handles are
identified. -/
def Diagram.off (D : Diagram) : Nat := D.handles.foldr max 0 + 1

/-- Relabel every handle of a diagram upward by `k`. -/
def Diagram.shift (k : Nat) (D : Diagram) : Diagram :=
  ⟨D.verts.map (fun v => (v.1 + k, v.2)),
   D.edges.map (fun e => (e.1 + k, e.2.1 + k, e.2.2)),
   D.inputs.map (· + k),
   D.outputs.map (· + k)⟩

/-- The neighbours of `v` over an edge list, with the kind of the
connecting edge (a self-loop contributes once). -/
def nbrsOf (es : List (Nat × Nat × EdgeKind)) (v : Nat) :
    List (Nat × EdgeKind) :=
  es.filterMap (fun e =>
    if e.1 = v then some (e.2.1, e.2.2)
    else if e.2.1 = v then some (e.1, e.2.2) else none)

/-- Kind of the direct edge produced by splicing a boundary pair whose
two incident edges have kinds `a` and `b`.  The spec fixes only that a
direct edge appears; the kind law (two Hadamard half-wires cancel) is
one implementation choice, and no claim depends on it. -/
def spliceKind (a b : EdgeKind) : EdgeKind :=
  if a = b then EdgeKind.Regular else EdgeKind.Hadam

/-- Modelled from the spec: `adjoint` (a `todo!()` stub in the source)
reverses the input/output roles and negates every phase modulo 2 in
place; edge kinds and connectivity are unchanged. -/
def Diagram.adjoint (D : Diagram) : Diagram :=
  ⟨D.verts.map (fun v => (v.1, { v.2 with phase := v.2.phase.neg })),
   D.edges, D.outputs, D.inputs⟩

/-- Modelled from the spec: `tensor` (a `todo!()` stub in the source)
merges the other graph with no identification (its handles are
relabelled above the first operand); the input sequence is this graph's
inputs followed by the other's, likewise the outputs, and no edges are
added or removed. -/
def Diagram.tensor (A B : Diagram) : Diagram :=
  let B2 := Diagram.shift A.off B
  ⟨A.verts ++ B2.verts, A.edges ++ B2.edges,
   A.inputs ++ B2.inputs, A.outputs ++ B2.outputs⟩

/-- The success payload of `compose` when the arity guard passes. -/
def composeBody (A B : Diagram) : Diagram :=
  let B2 := Diagram.shift A.off B
  let es := A.edges ++ B2.edges
  let dead := A.outputs ++ B2.inputs
  { verts := (A.verts ++ B2.verts).filter (fun v => !(dead.contains v.1))
    edges := (es.filter (fun e =>
        !(dead.contains e.1) && !(dead.contains e.2.1)))
      ++ (A.outputs.zip B2.inputs).flatMap (fun p =>
          (nbrsOf es p.1).flatMap (fun x =>
            (nbrsOf es p.2).map (fun y =>
              (x.1, y.1, spliceKind x.2 y.2))))
    inputs := A.inputs
    outputs := B2.outputs }

/-- Modelled from the spec: `compose` (a `todo!()` stub in the source)
merges the second graph (relabelled), pairs this graph's ordered outputs
with the other's ordered inputs positionwise, splices every paired
boundary pair into direct edges between their respective neighbours,
and discards the now-interior boundary vertices; the result keeps this
graph's inputs and takes the other's outputs.  A length mismatch
between the two ordered sequences is reported as an error, producing no
graph at all (no partial splice). -/
def Diagram.compose (A B : Diagram) : Except String Diagram :=
  if A.outputs.length = B.inputs.length then
    Except.ok (composeBody A B)
  else Except.error "compose: mismatched output and input arities"

/-- Well-formedness of a diagram: handles are distinct, and every edge
endpoint and every designated input or output is a live handle. -/
def Diagram.WF (D : Diagram) : Prop :=
  D.handles.Nodup ∧
  (∀ e ∈ D.edges, e.1 ∈ D.handles ∧ e.2.1 ∈ D.handles) ∧
  (∀ v ∈ D.inputs, v ∈ D.handles) ∧
  (∀ v ∈ D.outputs, v ∈ D.handles)

/-- A concrete two-spider diagram with normalized phases, one wire and
one input and output, used to instantiate the structural theorems. -/
def dPair : Diagram :=
  ⟨[(0, ⟨⟨0⟩, VertexKind.Z⟩), (1, ⟨⟨1⟩, VertexKind.X⟩)],
   [(0, 1, EdgeKind.Regular)], [0], [1]⟩

/-- A diagram with one Z spider wired to a single boundary output. -/
def dOut : Diagram :=
  ⟨[(0, ⟨⟨0⟩, VertexKind.Z⟩), (1, ⟨⟨0⟩, VertexKind.Boundary⟩)],
   [(0, 1, EdgeKind.Regular)], [], [1]⟩

/-- A diagram with a single boundary input wired to one X spider. -/
def dIn : Diagram :=
  ⟨[(0, ⟨⟨0⟩, VertexKind.Boundary⟩), (1, ⟨⟨0⟩, VertexKind.X⟩)],
   [(0, 1, EdgeKind.Regular)], [0], [1]⟩

theorem Phase.ofRat_spec (r : Rat) :
    0 ≤ (Phase.ofRat r).f ∧ (Phase.ofRat r).f < 2 ∧
      (Phase.ofRat r).f = r - 2 * (⌊r / 2⌋ : Int) := by
  refine ⟨?_, ?_, rfl⟩
  · have h := Int.fract_nonneg (r / 2)
    have : (Phase.ofRat r).f = 2 * Int.fract (r / 2) := by
      simp only [Phase.ofRat, Int.fract]
      ring
    rw [this]
    linarith
  · have h := Int.fract_lt_one (r / 2)
    have : (Phase.ofRat r).f = 2 * Int.fract (r / 2) := by
      simp only [Phase.ofRat, Int.fract]
      ring
    rw [this]
    linarith

theorem Phase.ofRat_normalized (r : Rat) : (Phase.ofRat r).Normalized :=
  ⟨(Phase.ofRat_spec r).1, (Phase.ofRat_spec r).2.1⟩

/-- Adding an even integer multiple does not change the normalized phase. -/
theorem Phase.ofRat_add_two_mul_int (r : Rat) (k : Int) :
    Phase.ofRat (r + 2 * k) = Phase.ofRat r := by
  unfold Phase.ofRat
  have hfl : ⌊(r + 2 * (k : Rat)) / 2⌋ = ⌊r / 2⌋ + k := by
    have : (r + 2 * (k : Rat)) / 2 = r / 2 + (k : Rat) := by ring
    rw [this, Int.floor_add_int]
  rw [hfl]
  congr 1
  push_cast
  ring

/-- A value already inside `[0, 2)` is fixed by normalization. -/
theorem Phase.ofRat_eq_self (r : Rat) (h0 : 0 ≤ r) (h2 : r < 2) :
    Phase.ofRat r = ⟨r⟩ := by
  unfold Phase.ofRat
  have hfl : ⌊r / 2⌋ = 0 := by
    rw [Int.floor_eq_zero_iff]
    constructor
    · positivity
    · linarith
  rw [hfl]
  norm_num

/-- Negating twice restores a normalized phase. -/
theorem Phase.neg_neg_of_normalized (a : Phase) (h : a.Normalized) :
    a.neg.neg = a := by
  obtain ⟨h0, h2⟩ := h
  unfold Phase.neg
  have hneg : (Phase.ofRat (-a.f)).f = -a.f - 2 * (⌊-a.f / 2⌋ : Int) :=
    (Phase.ofRat_spec (-a.f)).2.2
  rw [hneg]
  have hrw : -(-a.f - 2 * (⌊-a.f / 2⌋ : Int)) = a.f + 2 * (⌊-a.f / 2⌋ : Int) := by
    ring
  rw [hrw, Phase.ofRat_add_two_mul_int, Phase.ofRat_eq_self a.f h0 h2]

/-- C1: Every Phase value observable through the API is in canonical
lowest-terms form in the half-open range `[0, 2)`: for every rational
`r`, constructing a Phase from `r` and reading it back yields the
reduced fraction congruent to `r` mod 2 (the difference is twice an
integer, and the stored numerator and denominator are coprime), and
`add a b` yields the reduced fraction of `(a+b) mod 2`. -/
theorem phase_values_normalized (r : Rat) (a b : Phase) :
    (0 ≤ (Phase.ofRat r).f ∧ (Phase.ofRat r).f < 2 ∧
      (∃ k : Int, r - (Phase.ofRat r).f = 2 * k) ∧
      ((Phase.ofRat r).f.num.natAbs.Coprime (Phase.ofRat r).f.den)) ∧
    (0 ≤ (a.add b).f ∧ (a.add b).f < 2 ∧
      (∃ k : Int, (a.f + b.f) - (a.add b).f = 2 * k) ∧
      ((a.add b).f.num.natAbs.Coprime (a.add b).f.den)) := by
  constructor
  · obtain ⟨h0, h2, heq⟩ := Phase.ofRat_spec r
    exact ⟨h0, h2, ⟨⌊r / 2⌋, by rw [heq]; ring⟩, (Phase.ofRat r).f.reduced⟩
  · obtain ⟨h0, h2, heq⟩ := Phase.ofRat_spec (a.f + b.f)
    exact ⟨h0, h2, ⟨⌊(a.f + b.f) / 2⌋, by rw [Phase.add, heq]; ring⟩,
      (Phase.ofRat (a.f + b.f)).f.reduced⟩

theorem incident_split (es : List (Nat × Nat × EdgeData)) (v : Nat) :
    (es.filterMap (fun x =>
        if x.1 = v then some x.2.1 else if x.2.1 = v then some x.1
        else none)).length
      + (es.filter (fun x => !(x.1 = v ∨ x.2.1 = v : Bool))).length
      = es.length := by
  induction es with
  | nil => rfl
  | cons x es ih =>
    by_cases h1 : x.1 = v <;> by_cases h2 : x.2.1 = v <;>
      simp [List.filterMap_cons, List.filter_cons, h1, h2] at ih ⊢ <;> omega

/-- C10: For every vertex handle whose index is not a current vertex of
the graph, `neighbours` yields the empty sequence and `vertex_degree`
returns 0; both queries are total. -/
theorem absent_vertex_queries (g : GGraph) (v : Nat)
    (hv : g.num_vertices ≤ v) :
    g.neighbours v = [] ∧ g.vertex_degree v = 0 := by
  have h : ¬ v < g.nodes.length := by
    simp only [GGraph.num_vertices] at hv
    omega
  constructor
  · simp [GGraph.neighbours, h]
  · simp [GGraph.vertex_degree, GGraph.neighbours, h]

/-- Witness for C10 at a concrete graph and index. -/
theorem absent_vertex_queries_witness :
    gPair.neighbours 5 = [] ∧ gPair.vertex_degree 5 = 0 :=
  absent_vertex_queries gPair 5 (by decide)

/-- C6 (supporting evaluation): `add_edge` on the empty graph with the
absent endpoints 0 and 1 takes the petgraph panic path (embedded as
`none`): the call aborts instead of reporting a recoverable error, and
no graph with a dangling edge is ever produced. -/
theorem add_edge_absent_endpoint_panics :
    GGraph.add_edge GGraph.empty 0 1 EdgeKind.Regular = none := by decide

/-- C9 (supporting evaluation): the implemented `remove_vertex` only
touches the petgraph arena; the input and output designation sets are
left unchanged, so a removed vertex is never removed from the
designation containers. -/
theorem remove_vertex_keeps_designations (g : GGraph) (v : Nat) :
    (g.remove_vertex v).inputs = g.inputs ∧
      (g.remove_vertex v).outputs = g.outputs := by
  unfold GGraph.remove_vertex
  split <;> exact ⟨rfl, rfl⟩

/-- C8 (amended): for a live vertex `v` of degree `k` in a well-formed
graph, `remove_vertex v` removes the vertex and exactly the `k` incident
edges (vertex count down by one, edge count down by `k`), and every
remaining edge still has two live endpoints; removing an index with no
node is a no-op.  (Re-removing the same handle is a no-op only when the
index is no longer occupied: the swap-remove compaction may move the
last vertex into the freed slot, see the counterexample.) -/
theorem remove_vertex_cascade (g : GGraph) (v : Nat)
    (hv : v < g.num_vertices) (hwf : g.WF) :
    (g.remove_vertex v).num_vertices = g.num_vertices - 1 ∧
    g.vertex_degree v ≤ g.num_edges ∧
    (g.remove_vertex v).num_edges = g.num_edges - g.vertex_degree v ∧
    (g.remove_vertex v).WF ∧
    (∀ u, g.num_vertices ≤ u → g.remove_vertex u = g) := by
  have hv' : v < g.nodes.length := hv
  have hsplit := incident_split g.edges v
  have hdeg : g.vertex_degree v =
      (g.edges.filterMap (fun x =>
        if x.1 = v then some x.2.1 else if x.2.1 = v then some x.1
        else none)).length := by
    simp [GGraph.vertex_degree, GGraph.neighbours, hv']
  have hrem : g.remove_vertex v =
      { g with
        nodes := swapRemove g.nodes v
        edges := (g.edges.filter
            (fun x => !(x.1 = v ∨ x.2.1 = v : Bool))).map
          (fun x =>
            (if x.1 = g.nodes.length - 1 then v else x.1,
             if x.2.1 = g.nodes.length - 1 then v else x.2.1, x.2.2)) } := by
    simp [GGraph.remove_vertex, hv']
  have hnodes : (g.remove_vertex v).num_vertices = g.num_vertices - 1 := by
    rw [hrem]
    simp [GGraph.num_vertices, swapRemove]
  refine ⟨hnodes, ?_, ?_, ?_, ?_⟩
  · simp only [GGraph.num_edges]
    omega
  · rw [hrem]
    simp only [GGraph.num_edges, List.length_map]
    omega
  · intro x hx
    rw [hrem] at hx
    simp only [List.mem_map] at hx
    obtain ⟨y, hy, hxy⟩ := hx
    rw [List.mem_filter] at hy
    obtain ⟨hymem, hycond⟩ := hy
    have hnv : ¬(y.1 = v ∨ y.2.1 = v) := by
      simpa using hycond
    have h1 : y.1 ≠ v := fun hc => hnv (Or.inl hc)
    have h2 : y.2.1 ≠ v := fun hc => hnv (Or.inr hc)
    obtain ⟨hb1, hb2⟩ := hwf y hymem
    have hlen : (g.remove_vertex v).nodes.length = g.nodes.length - 1 := by
      simpa [GGraph.num_vertices] using hnodes
    rw [hlen]
    subst hxy
    dsimp only
    constructor
    · by_cases h : y.1 = g.nodes.length - 1
      · rw [if_pos h]; omega
      · rw [if_neg h]; omega
    · by_cases h : y.2.1 = g.nodes.length - 1
      · rw [if_pos h]; omega
      · rw [if_neg h]; omega
  · intro u hu
    unfold GGraph.remove_vertex
    rw [if_neg]
    simp only [GGraph.num_vertices] at hu
    omega

/-- Witness for C8 at a concrete graph: removing the degree-1 vertex 0 of
the two-vertex one-edge graph drops the vertex count to 1 and the edge
count to 0. -/
theorem remove_vertex_cascade_witness :
    (gLine.remove_vertex 0).num_vertices = gLine.num_vertices - 1 ∧
    (gLine.remove_vertex 0).num_edges =
      gLine.num_edges - gLine.vertex_degree 0 :=
  ⟨(remove_vertex_cascade gLine 0 (by decide)
      (by unfold GGraph.WF; decide)).1,
   (remove_vertex_cascade gLine 0 (by decide)
      (by unfold GGraph.WF; decide)).2.2.1⟩

/-- C8 counterexample: re-removing a removed handle is not a no-op.  In
the two-vertex graph `gPair`, removing handle 0 swap-moves the vertex at
index 1 into slot 0; a second `remove_vertex 0` then deletes that other
vertex, so the state changes (vertex count 1 after the first removal, 0
after the second). -/
theorem remove_vertex_not_idempotent :
    (gPair.remove_vertex 0).num_vertices = 1 ∧
    ((gPair.remove_vertex 0).remove_vertex 0).num_vertices = 0 ∧
    ¬((gPair.remove_vertex 0).remove_vertex 0 = gPair.remove_vertex 0) := by
  decide

/-- C7 (amended): vertex and edge handles are stable under additions
(adding a vertex or an edge changes no existing lookup), and a handle
whose index is outside the current arena resolves to an explicit absent
result with no crash.  (After a removal, however, a stale handle may be
re-occupied through swap-remove compaction and then resolves to the
data of a different element; see the counterexample.) -/
theorem handle_stability (g gE : GGraph) (u e i j eNew : Nat)
    (kind : VertexKind) (ek : EdgeKind) (ph : Phase) :
    (u < g.num_vertices →
      (g.add_vertex kind ph).2.vertex u = g.vertex u) ∧
    ((g.add_vertex kind ph).2.edge e = g.edge e) ∧
    ((g.add_vertex kind ph).2.edge_endpoints e = g.edge_endpoints e) ∧
    (g.add_edge i j ek = some (eNew, gE) → gE.vertex u = g.vertex u) ∧
    (g.add_edge i j ek = some (eNew, gE) → e < g.num_edges →
      gE.edge e = g.edge e ∧ gE.edge_endpoints e = g.edge_endpoints e) ∧
    (g.num_vertices ≤ u → g.vertex u = none) ∧
    (g.num_edges ≤ e → g.edge e = none ∧ g.edge_endpoints e = none) := by
  have hinv : g.add_edge i j ek = some (eNew, gE) →
      gE = { g with edges := g.edges ++ [(j, i, ⟨ek⟩)] } := by
    intro h
    unfold GGraph.add_edge at h
    split at h
    · simp only [Option.some.injEq, Prod.mk.injEq] at h
      exact h.2.symm
    · exact absurd h (by simp)
  refine ⟨?_, rfl, rfl, ?_, ?_, ?_, ?_⟩
  · intro hu
    have hu' : u < g.nodes.length := hu
    simp only [GGraph.add_vertex, GGraph.vertex]
    simp [List.getElem?_append, hu']
  · intro h
    rw [hinv h]
    rfl
  · intro h he
    have he' : e < g.edges.length := he
    rw [hinv h]
    constructor
    · simp only [GGraph.edge]
      simp [List.getElem?_append, he']
    · simp only [GGraph.edge_endpoints]
      simp [List.getElem?_append, he']
  · intro hu
    have hu' : g.nodes.length ≤ u := hu
    simp only [GGraph.vertex]
    simp [List.getElem?_eq_none, hu']
  · intro he
    have he' : g.edges.length ≤ e := he
    simp only [GGraph.edge, GGraph.edge_endpoints]
    rw [List.getElem?_eq_none he']
    exact ⟨rfl, rfl⟩

/-- Witness for C7: concrete instances of the stability and absence
conclusions, each hypothesis discharged at a concrete graph. -/
theorem handle_stability_witness :
    ((gPair.add_vertex VertexKind.Z Phase.default).2.vertex 0 =
      gPair.vertex 0) ∧
    (gLine.vertex 0 = gPair.vertex 0) ∧
    (gLine2.edge 0 = gLine.edge 0 ∧
      gLine2.edge_endpoints 0 = gLine.edge_endpoints 0) ∧
    (gPair.vertex 5 = none) ∧
    (gPair.edge 5 = none ∧ gPair.edge_endpoints 5 = none) :=
  ⟨(handle_stability gPair gLine 0 0 0 1 0 VertexKind.Z EdgeKind.Regular
      Phase.default).1 (by decide),
   (handle_stability gPair gLine 0 0 0 1 0 VertexKind.Z EdgeKind.Regular
      Phase.default).2.2.2.1 (by decide),
   (handle_stability gLine gLine2 0 0 0 1 1 VertexKind.Z EdgeKind.Regular
      Phase.default).2.2.2.2.1 (by decide) (by decide),
   (handle_stability gPair gLine 5 0 0 1 0 VertexKind.Z EdgeKind.Regular
      Phase.default).2.2.2.2.2.1 (by decide),
   (handle_stability gPair gLine 0 5 0 1 0 VertexKind.Z EdgeKind.Regular
      Phase.default).2.2.2.2.2.2 (by decide)⟩

/-- C7 counterexample: a stale vertex handle does not fail cleanly after
a removal.  In `gPair` (vertex 0 a Z spider, vertex 1 an X spider),
removing vertex 0 moves the X vertex into slot 0; the stale handle 0
then resolves to `some` data, and that data is the X vertex formerly at
handle 1, not an absent result. -/
theorem stale_handle_returns_other_data :
    (gPair.remove_vertex 0).vertex 0 ≠ none ∧
    (gPair.remove_vertex 0).vertex 0 = gPair.vertex 1 ∧
    gPair.vertex 1 ≠ gPair.vertex 0 := by
  decide

theorem le_foldr_max (l : List Nat) (x : Nat) (hx : x ∈ l) :
    x ≤ l.foldr max 0 := by
  induction l with
  | nil => cases hx
  | cons a l ih =>
    rcases List.mem_cons.mp hx with h | h
    · subst h
      exact le_max_left _ _
    · exact le_trans (ih h) (le_max_right _ _)

theorem handle_lt_off (D : Diagram) (x : Nat) (hx : x ∈ D.handles) :
    x < D.off :=
  Nat.lt_succ_of_le (le_foldr_max D.handles x hx)

theorem nbrsOf_eq_nil (es : List (Nat × Nat × EdgeKind)) (v : Nat)
    (h : ∀ e ∈ es, e.1 ≠ v ∧ e.2.1 ≠ v) : nbrsOf es v = [] := by
  induction es with
  | nil => rfl
  | cons e es ih =>
    obtain ⟨h1, h2⟩ := h e (List.mem_cons_self e es)
    simp only [nbrsOf, List.filterMap_cons, if_neg h1, if_neg h2]
    exact ih (fun x hx => h x (List.mem_cons_of_mem e hx))

theorem nbrsOf_shift (es : List (Nat × Nat × EdgeKind)) (v k : Nat) :
    nbrsOf (es.map (fun e => (e.1 + k, e.2.1 + k, e.2.2))) (v + k) =
      (nbrsOf es v).map (fun x => (x.1 + k, x.2)) := by
  induction es with
  | nil => rfl
  | cons e es ih =>
    simp only [nbrsOf, List.map_cons, List.filterMap_cons] at *
    by_cases h1 : e.1 = v
    · rw [if_pos h1, if_pos (by omega : e.1 + k = v + k)]
      simp only [List.map_cons, ih]
    · rw [if_neg h1, if_neg (by omega : ¬ e.1 + k = v + k)]
      by_cases h2 : e.2.1 = v
      · rw [if_pos h2, if_pos (by omega : e.2.1 + k = v + k)]
        simp only [List.map_cons, ih]
      · rw [if_neg h2, if_neg (by omega : ¬ e.2.1 + k = v + k)]
        exact ih

theorem nbrsOf_mem_endpoint (es : List (Nat × Nat × EdgeKind)) (v : Nat)
    (p : Nat × EdgeKind) (hp : p ∈ nbrsOf es v) :
    ∃ e ∈ es, e.1 = p.1 ∨ e.2.1 = p.1 := by
  simp only [nbrsOf, List.mem_filterMap] at hp
  obtain ⟨e, he, hcond⟩ := hp
  refine ⟨e, he, ?_⟩
  by_cases h1 : e.1 = v
  · rw [if_pos h1] at hcond
    have hp2 := (Option.some.injEq _ _).mp hcond
    right
    rw [← hp2]
  · rw [if_neg h1] at hcond
    by_cases h2 : e.2.1 = v
    · rw [if_pos h2] at hcond
      have hp2 := (Option.some.injEq _ _).mp hcond
      left
      rw [← hp2]
    · rw [if_neg h2] at hcond
      cases hcond

theorem filter_fst_ne_length {α : Type} (l : List (Nat × α)) (o : Nat)
    (hnd : (l.map Prod.fst).Nodup) (ho : o ∈ l.map Prod.fst) :
    (l.filter (fun v => !(v.1 == o))).length = l.length - 1 := by
  induction l with
  | nil => cases ho
  | cons a l ih =>
    simp only [List.map_cons, List.nodup_cons] at hnd
    obtain ⟨hna, hnd⟩ := hnd
    by_cases h : a.1 = o
    · rw [List.filter_cons_of_neg (by simp [h])]
      have hall : ∀ v ∈ l, (!(v.1 == o)) = true := by
        intro v hv
        have hvm : v.1 ∈ l.map Prod.fst := List.mem_map_of_mem _ hv
        simp only [Bool.not_eq_true', beq_eq_false_iff_ne]
        intro hc
        exact hna (h ▸ hc ▸ hvm)
      rw [List.filter_eq_self.mpr hall]
      simp
    · rw [List.filter_cons_of_pos (by simpa using h)]
      simp only [List.map_cons, List.mem_cons] at ho
      have ho' : o ∈ l.map Prod.fst := by
        rcases ho with hoa | hol
        · exact absurd hoa.symm h
        · exact hol
      have hpos : 0 < l.length := by
        have := List.length_pos_of_mem ho'
        simpa using this
      have hrec := ih hnd ho'
      simp only [List.length_cons]
      omega

theorem nbrsOf_append (es1 es2 : List (Nat × Nat × EdgeKind)) (v : Nat) :
    nbrsOf (es1 ++ es2) v = nbrsOf es1 v ++ nbrsOf es2 v :=
  List.filterMap_append es1 es2 _

/-- C4: a single `adjoint` swaps the input and output designations,
negates every phase modulo 2, and changes no edge (kind or endpoints),
no vertex handle or kind, and no vertex or edge count; consequently,
when every stored phase is in the normalized range the spec guarantees
for observable phases, `adjoint (adjoint D) = D`. -/
theorem adjoint_involution (D : Diagram)
    (h : ∀ v ∈ D.verts, v.2.phase.Normalized) :
    D.adjoint.inputs = D.outputs ∧
    D.adjoint.outputs = D.inputs ∧
    D.adjoint.edges = D.edges ∧
    D.adjoint.num_vertices = D.num_vertices ∧
    D.adjoint.num_edges = D.num_edges ∧
    D.adjoint.verts =
      D.verts.map (fun v => (v.1, ⟨v.2.phase.neg, v.2.kind⟩)) ∧
    D.adjoint.adjoint = D := by
  refine ⟨rfl, rfl, rfl, by simp [Diagram.adjoint, Diagram.num_vertices],
    rfl, rfl, ?_⟩
  obtain ⟨vs, es, is, os⟩ := D
  simp only [Diagram.adjoint, List.map_map]
  congr 1
  have : ∀ v ∈ vs, ((fun v => (v.1, { v.2 with phase := v.2.phase.neg })) ∘
      (fun v => (v.1, { v.2 with phase := v.2.phase.neg }))) v = v := by
    intro v hv
    have hn := Phase.neg_neg_of_normalized v.2.phase (h v hv)
    simp [Function.comp, hn]
  calc vs.map _ = vs.map id := List.map_congr_left this
  _ = vs := List.map_id vs

/-- Witness for C4 at the concrete diagram `dPair`, whose phases 0 and
1 are normalized. -/
theorem adjoint_involution_witness :
    dPair.adjoint.inputs = dPair.outputs ∧
    dPair.adjoint.adjoint = dPair :=
  ⟨(adjoint_involution dPair (by decide)).1,
   (adjoint_involution dPair (by decide)).2.2.2.2.2.2⟩

/-- C5: `tensor` concatenates the ordered input sequences (this graph's
inputs first, then the relabelled inputs of the other, order preserved)
and likewise the output sequences; the vertex and edge counts add, and
the edge list is exactly the two original edge lists (the second
relabelled), with nothing added or removed. -/
theorem tensor_concat (A B : Diagram) :
    (A.tensor B).num_vertices = A.num_vertices + B.num_vertices ∧
    (A.tensor B).num_edges = A.num_edges + B.num_edges ∧
    (A.tensor B).inputs = A.inputs ++ B.inputs.map (· + A.off) ∧
    (A.tensor B).outputs = A.outputs ++ B.outputs.map (· + A.off) ∧
    (A.tensor B).edges = A.edges ++ B.edges.map
      (fun e => (e.1 + A.off, e.2.1 + A.off, e.2.2)) := by
  refine ⟨?_, ?_, rfl, rfl, rfl⟩
  · simp [Diagram.tensor, Diagram.shift, Diagram.num_vertices]
  · simp [Diagram.tensor, Diagram.shift, Diagram.num_edges]

/-- C3: `compose` with mismatched ordered output/input arities reports
an error: the total function returns the `error` branch and produces no
result graph, so neither operand is spliced or otherwise changed. -/
theorem compose_mismatch (A B : Diagram)
    (h : A.outputs.length ≠ B.inputs.length) :
    A.compose B =
      Except.error "compose: mismatched output and input arities" := by
  unfold Diagram.compose
  rw [if_neg h]

/-- Witness for C3: composing the one-output diagram `dPair` with a
zero-input diagram is rejected. -/
theorem compose_mismatch_witness :
    dPair.compose (Diagram.mk [] [] [] []) =
      Except.error "compose: mismatched output and input arities" :=
  compose_mismatch dPair (Diagram.mk [] [] [] []) (by decide)

/-- C2: composing a diagram `A` having exactly one output `o` (a
degree-1 vertex whose unique incident edge joins it to `nA`) with a
diagram `B` having exactly one input `i` (degree 1, neighbour `nB`)
succeeds (the arities 1 = 1 match) and yields a graph with vertex count
`count(A) + count(B) - 2` (the two boundary vertices are discarded), a
direct edge between `nA` and the copy of `nB`, `B`'s outputs (relabelled
into the merged handle space) as outputs, and `A`'s original inputs. -/
theorem compose_splice (A B : Diagram) (o i nA nB : Nat)
    (kA kB : EdgeKind)
    (hWA : A.WF) (hWB : B.WF)
    (hAo : A.outputs = [o]) (hBi : B.inputs = [i])
    (hnA : nbrsOf A.edges o = [(nA, kA)])
    (hnB : nbrsOf B.edges i = [(nB, kB)]) :
    ∃ C, A.compose B = Except.ok C ∧
      C.num_vertices = A.num_vertices + B.num_vertices - 2 ∧
      (nA, nB + A.off, spliceKind kA kB) ∈ C.edges ∧
      C.outputs = B.outputs.map (· + A.off) ∧
      C.inputs = A.inputs := by
  obtain ⟨hndA, heA, hiA, hoA⟩ := hWA
  obtain ⟨hndB, heB, hiB, hoB⟩ := hWB
  have hlen : A.outputs.length = B.inputs.length := by simp [hAo, hBi]
  have hcomp : A.compose B = Except.ok (composeBody A B) := by
    unfold Diagram.compose
    rw [if_pos hlen]
  have hoH : o ∈ A.handles := hoA o (by simp [hAo])
  have hiH : i ∈ B.handles := hiB i (by simp [hBi])
  have hoLt : o < A.off := handle_lt_off A o hoH
  have hAendLt : ∀ e ∈ A.edges, e.1 < A.off ∧ e.2.1 < A.off := fun e he =>
    ⟨handle_lt_off A _ (heA e he).1, handle_lt_off A _ (heA e he).2⟩
  have hB2e : (Diagram.shift A.off B).edges =
      B.edges.map (fun e => (e.1 + A.off, e.2.1 + A.off, e.2.2)) := rfl
  have hB2ge : ∀ e ∈ (Diagram.shift A.off B).edges,
      A.off ≤ e.1 ∧ A.off ≤ e.2.1 := by
    intro e he
    rw [hB2e] at he
    obtain ⟨x, _, hx⟩ := List.mem_map.mp he
    subst hx
    exact ⟨Nat.le_add_left _ _, Nat.le_add_left _ _⟩
  have hesO : nbrsOf (A.edges ++ (Diagram.shift A.off B).edges) o
      = [(nA, kA)] := by
    rw [nbrsOf_append, hnA,
      nbrsOf_eq_nil _ o (fun e he => by
        obtain ⟨h1, h2⟩ := hB2ge e he
        omega), List.append_nil]
  have hesI : nbrsOf (A.edges ++ (Diagram.shift A.off B).edges)
      (i + A.off) = [(nB + A.off, kB)] := by
    rw [nbrsOf_append,
      nbrsOf_eq_nil A.edges (i + A.off) (fun e he => by
        obtain ⟨h1, h2⟩ := hAendLt e he
        omega),
      hB2e, nbrsOf_shift, hnB]
    rfl
  have hdead : A.outputs ++ (Diagram.shift A.off B).inputs
      = [o, i + A.off] := by
    simp [Diagram.shift, hAo, hBi]
  refine ⟨composeBody A B, hcomp, ?_, ?_, ?_, ?_⟩
  · have hverts : (composeBody A B).verts =
        (A.verts ++ (Diagram.shift A.off B).verts).filter
          (fun v => !((A.outputs ++ (Diagram.shift A.off B).inputs).contains
            v.1)) := rfl
    simp only [Diagram.num_vertices, hverts, hdead, List.filter_append,
      List.length_append]
    have hfA : A.verts.filter (fun v => !([o, i + A.off].contains v.1))
        = A.verts.filter (fun v => !(v.1 == o)) := by
      apply List.filter_congr
      intro v hv
      have hvlt : v.1 < A.off :=
        handle_lt_off A v.1 (List.mem_map_of_mem _ hv)
      have h2 : ¬ v.1 = i + A.off := by omega
      by_cases hvo : v.1 = o <;> simp [List.contains_cons, hvo, h2]
    have hfB : (Diagram.shift A.off B).verts.filter
          (fun v => !([o, i + A.off].contains v.1))
        = (Diagram.shift A.off B).verts.filter
            (fun v => !(v.1 == i + A.off)) := by
      apply List.filter_congr
      intro v hv
      have hvge : A.off ≤ v.1 := by
        obtain ⟨x, _, hx⟩ := List.mem_map.mp hv
        subst hx
        exact Nat.le_add_left _ _
      have h1 : ¬ v.1 = o := by omega
      by_cases hvi : v.1 = i + A.off <;>
        simp [List.contains_cons, hvi, h1]
    have hndB2 : ((Diagram.shift A.off B).verts.map Prod.fst).Nodup := by
      have : (Diagram.shift A.off B).verts.map Prod.fst
          = B.handles.map (· + A.off) := by
        simp [Diagram.shift, Diagram.handles, List.map_map]
      rw [this]
      exact hndB.map (fun x y h => by omega)
    have hiB2 : i + A.off ∈ (Diagram.shift A.off B).verts.map Prod.fst := by
      have : (Diagram.shift A.off B).verts.map Prod.fst
          = B.handles.map (· + A.off) := by
        simp [Diagram.shift, Diagram.handles, List.map_map]
      rw [this]
      exact List.mem_map_of_mem _ hiH
    rw [hfA, hfB, filter_fst_ne_length A.verts o hndA hoH,
      filter_fst_ne_length _ _ hndB2 hiB2]
    have h1A : 0 < A.verts.length := by
      have := List.length_pos_of_mem hoH
      simpa [Diagram.handles] using this
    have h1B : 0 < B.verts.length := by
      have := List.length_pos_of_mem hiH
      simpa [Diagram.handles] using this
    have hB2len : (Diagram.shift A.off B).verts.length = B.verts.length := by
      simp [Diagram.shift]
    rw [hB2len]
    omega
  · have hedges : (composeBody A B).edges =
        ((A.edges ++ (Diagram.shift A.off B).edges).filter (fun e =>
            !((A.outputs ++ (Diagram.shift A.off B).inputs).contains e.1) &&
            !((A.outputs ++ (Diagram.shift A.off B).inputs).contains e.2.1)))
          ++ (A.outputs.zip (Diagram.shift A.off B).inputs).flatMap
              (fun p =>
                (nbrsOf (A.edges ++ (Diagram.shift A.off B).edges)
                    p.1).flatMap (fun x =>
                  (nbrsOf (A.edges ++ (Diagram.shift A.off B).edges)
                      p.2).map (fun y =>
                    (x.1, y.1, spliceKind x.2 y.2)))) := rfl
    rw [hedges]
    apply List.mem_append_right
    have hzip : A.outputs.zip (Diagram.shift A.off B).inputs
        = [(o, i + A.off)] := by
      have : (Diagram.shift A.off B).inputs = [i + A.off] := by
        simp [Diagram.shift, hBi]
      rw [hAo, this]
      rfl
    rw [hzip]
    simp only [List.flatMap_cons, List.flatMap_nil, List.append_nil, hesO,
      hesI]
    simp
  · have : (composeBody A B).outputs = (Diagram.shift A.off B).outputs :=
      rfl
    rw [this]
    rfl
  · rfl

/-- Witness for C2: composing the one-output diagram `dOut` (output
vertex 1, neighbour 0) with the one-input diagram `dIn` (input vertex 0,
neighbour 1) at concrete inputs. -/
theorem compose_splice_witness :
    ∃ C, dOut.compose dIn = Except.ok C ∧
      C.num_vertices = dOut.num_vertices + dIn.num_vertices - 2 ∧
      (0, 1 + dOut.off, spliceKind EdgeKind.Regular EdgeKind.Regular) ∈
        C.edges ∧
      C.outputs = dIn.outputs.map (· + dOut.off) ∧
      C.inputs = dOut.inputs :=
  compose_splice dOut dIn 1 0 0 1 EdgeKind.Regular EdgeKind.Regular
    (by unfold Diagram.WF Diagram.handles; decide)
    (by unfold Diagram.WF Diagram.handles; decide)
    rfl rfl rfl rfl
